import Mathlib

/-!
Shallow embedding of `qde.py` (repository IgorGayday/qde) in Lean 4, together
with theorems settling the frozen claims about its specification.

Modelling conventions:
* Python floats are modelled as rationals (`ℚ`); all arithmetic in the source
  is exact rational arithmetic on the inputs, so this is faithful.
* `numpy` 1D arrays are `List ℚ` where the source builds them from
  comprehensions / slices, and total functions `ℤ → ℚ` (resp. `ℕ → ℚ`) where
  the source allocates a zero array (`np.zeros`) or an uninitialised array
  (`np.empty`, modelled by an arbitrary `init` parameter) and mutates entries.
* Python exceptions (`NotImplementedError` from the stencil lookup,
  `ValueError` from `range(1, n, 0)`) are modelled by `Option`, `none` being
  the raising outcome.
* The external collaborators are parameters: `findiff.coefficients` (used for
  even accuracy orders only) is a function argument `fd : ℤ → ℤ → List ℚ`,
  and the QUBO sampler `QBSolv().sample_qubo` is a function argument
  returning a list of samples (assignment bits, energy, occurrence count).
* Python `int` is `ℤ` where values can be negative (indices relative to the
  first unknown point, accuracy orders); loop counters drawn from
  `range(...)` with nonnegative bounds are `ℕ`.  Python `%` on `int` agrees
  with `Int.emod` (result in `[0, divisor)` for a positive divisor), and
  Python `**` with a negative integer exponent yields the exact binary
  fraction, modelled by `zpow` on `ℚ`.
-/

namespace Qde

/-- Embedding of `get_deriv_range` (qde.py lines 62-86): returns
`(deriv_order, selected_accuracy, length, last_scheme_ind_global)` for a term
of the differential equation.  All four components are Python ints. -/
def get_deriv_range (deriv_ind point_ind last_point_ind max_considered_accuracy : ℤ) :
    ℤ × ℤ × ℤ × ℤ :=
  let deriv_order := deriv_ind - 1
  let selected_accuracy :=
    if deriv_order = 0 then 1
    else min max_considered_accuracy (last_point_ind - point_ind - deriv_order + 1)
  let length := deriv_order + selected_accuracy
  (deriv_order, selected_accuracy, length, point_ind + length - 1)

/-- Embedding of `get_finite_difference_coefficients` (qde.py lines 23-59).
The even-accuracy branch delegates to the external collaborator
`findiff.coefficients`, abstracted as the argument `fd`.  The
`NotImplementedError` raised for unsupported odd combinations is `none`. -/
def get_finite_difference_coefficients (fd : ℤ → ℤ → List ℚ)
    (deriv_order accuracy_order : ℤ) : Option (List ℚ) :=
  if deriv_order = 0 then some [1]
  else if accuracy_order % 2 = 0 then some (fd deriv_order accuracy_order)
  else if accuracy_order = 1 then
    if deriv_order = 1 then some [-1, 1]
    else if deriv_order = 2 then some [1, -2, 1]
    else none
  else if accuracy_order = 3 then
    if deriv_order = 1 then some [-11/6, 3, -3/2, 1/3]
    else none
  else if accuracy_order = 5 then
    if deriv_order = 1 then some [-137/60, 5, -5, 10/3, -5/4, 1/5]
    else none
  else none

/-- The Python iterator `range(-qbits_integer + 1, qbits_decimal + 1)` used by
both discretization builders (qde.py lines 210 and 224): the integers
`-qbits_integer + 1, ..., qbits_decimal`, of which there are
`qbits_integer + qbits_decimal` (for nonnegative qubit counts). -/
def j_range (qbits_integer qbits_decimal : ℕ) : List ℤ :=
  (List.range (qbits_integer + qbits_decimal)).map
    (fun (k : ℕ) => (k : ℤ) - qbits_integer + 1)

/-- Embedding of `build_discretization_matrix` (qde.py lines 200-211).  The
source builds the flat list `[2 ** -(j1 + j2) for j1 in j_range for j2 in
j_range]` and reshapes it row-major to a square matrix; row `j1` of that
reshape is exactly the inner comprehension over `j2`. -/
def build_discretization_matrix (qbits_integer qbits_decimal : ℕ) : List (List ℚ) :=
  (j_range qbits_integer qbits_decimal).map fun j1 =>
    (j_range qbits_integer qbits_decimal).map fun j2 => (2 : ℚ) ^ (-(j1 + j2))

/-- Embedding of `build_discretization_vector` (qde.py lines 214-225):
`[2 ** -j for j in j_range]`. -/
def build_discretization_vector (qbits_integer qbits_decimal : ℕ) : List ℚ :=
  (j_range qbits_integer qbits_decimal).map fun j => (2 : ℚ) ^ (-j)

/-- Embedding of `build_quadratic_minimization_matrix` (qde.py lines 8-20):
the `(npoints-1) × (npoints-1)` matrix
`np.diag([2]*(npoints-1)) + np.diag([-1]*(npoints-2), 1) +
np.diag([-1]*(npoints-2), -1)`, with the bottom-right entry overwritten to
`1` (`H[-1, -1] = 1`), divided by `dx ** 2`; written entrywise. -/
def build_quadratic_minimization_matrix (npoints : ℕ) (dx : ℚ) : List (List ℚ) :=
  (List.range (npoints - 1)).map fun i => (List.range (npoints - 1)).map fun j =>
    (if i = npoints - 2 ∧ j = npoints - 2 then 1
     else (if i = j then 2 else 0) + (if j = i + 1 then -1 else 0)
       + (if i = j + 1 then -1 else 0)) / dx ^ 2

/-- Embedding of `build_quadratic_minimization_vector` (qde.py lines 183-197):
`d = -f[0:-1]`, `d[0:-1] += f[1:-1]`, `d[0] -= y1 / dx`, returned as
`d * 2 / dx`; written entrywise (entry `k` of `d[0:-1] += f[1:-1]` adds
`f[k+1]` for `k < len(f) - 2`). -/
def build_quadratic_minimization_vector (f : List ℚ) (dx y1 : ℚ) : List ℚ :=
  (List.range (f.length - 1)).map fun k =>
    (-(f.getD k 0) + (if k < f.length - 2 then f.getD (k + 1) 0 else 0)
      - (if k = 0 then y1 / dx else 0)) * 2 / dx

/-- Embedding of `build_qubo_matrix` (qde.py lines 228-254).  `np.block` of
the blocks `H_discret_elem * val` is the `flatMap` construction below: each
continuous row `crow` and each discretization row `hrow` yield one binary
row, the concatenation over `val ∈ crow` of `hrow` scaled by `val`.  The
final `Q = H_bin + np.diag(d_bin)` is the elementwise sum.  Scope note: the
signed branch reads `d_discret_elem[0]` (line 249), which raises
`IndexError` when the discretization vector is empty
(`qbits_integer + qbits_decimal = 0`); the `getD` below totalizes that
access, so this embedding is exact for nonempty `d_discret_elem`
(`qbits_integer + qbits_decimal ≥ 1`), and every concrete evaluation in
this file stays in that range. -/
def build_qubo_matrix (f : List ℚ) (dx y1 : ℚ) (H_discret_elem : List (List ℚ))
    (d_discret_elem : List ℚ) (signed : Bool) : List (List ℚ) :=
  let H_cont := build_quadratic_minimization_matrix f.length dx
  let d_cont0 := build_quadratic_minimization_vector f dx y1
  let d_cont := if signed then
      d_cont0.set 0 (d_cont0.getD 0 0 - 2 * d_discret_elem.getD 0 0 / dx ^ 2)
    else d_cont0
  let H_bin := H_cont.flatMap fun crow =>
    H_discret_elem.map fun hrow => crow.flatMap fun v => hrow.map fun h => h * v
  let d_bin := d_cont.flatMap fun v => d_discret_elem.map fun dEl => dEl * v
  List.zipWith
    (fun row i => List.zipWith (fun v j => v + if i = j then d_bin.getD i 0 else 0)
      row (List.range row.length))
    H_bin (List.range H_bin.length)

/-- One sample returned by the external QUBO sampler collaborator
(`QBSolv().sample_qubo`): the binary assignment in variable order
(`sample.values()`, 0/1 values, kept as rationals since they are only used in
arithmetic), the sample's energy, and its occurrence count. -/
structure Sample where
  bits : List ℚ
  energy : ℚ
  occurrences : ℕ

/-- The decoded continuous values of the returned samples (qde.py lines
286-291): sample `s`, block-relative point `u` has value
`sum_k bits[u * len(d~) + k] * d~[k]` (the row-major reshape of the flat
assignment followed by the weighted sum over the last axis), recentered by
`2 ** (qbits_integer - 1)` when `signed` (a Python float when
`qbits_integer = 0`, hence the integer-exponent power). -/
def samples_cont (samples : List Sample) (d_discret_elem : List ℚ)
    (qbits_integer : ℕ) (signed : Bool) : ℕ → ℕ → ℚ :=
  fun s u =>
    (∑ k ∈ Finset.range d_discret_elem.length,
      (samples.getD s ⟨[], 0, 0⟩).bits.getD (u * d_discret_elem.length + k) 0
        * d_discret_elem.getD k 0)
    - (if signed then (2 : ℚ) ^ ((qbits_integer : ℤ) - 1) else 0)

/-- The per-block energy reported by the solver (qde.py lines 294-302): the
occurrence-weighted average of all sample energies when `average_solutions`,
else the first sample's energy. -/
def solution_energy (samples : List Sample) (average_solutions : Bool) : ℚ :=
  if average_solutions then
    ((List.range samples.length).map fun s =>
      (samples.getD s ⟨[], 0, 0⟩).energy
        * (((samples.getD s ⟨[], 0, 0⟩).occurrences : ℚ)
            / (samples.map fun smp => (smp.occurrences : ℚ)).sum)).sum
  else (samples.headD ⟨[], 0, 0⟩).energy

/-- The continuous values written into `solution[i:next_i]` (qde.py lines
294-301): the occurrence-weighted average of the decoded samples when
`average_solutions`, else the decoded first sample. -/
def block_values (samples : List Sample) (d_discret_elem : List ℚ)
    (qbits_integer : ℕ) (signed average_solutions : Bool) : ℕ → ℚ :=
  if average_solutions then
    fun u => ((List.range samples.length).map fun s =>
      samples_cont samples d_discret_elem qbits_integer signed s u
        * (((samples.getD s ⟨[], 0, 0⟩).occurrences : ℚ)
            / (samples.map fun smp => (smp.occurrences : ℚ)).sum)).sum
  else fun u => samples_cont samples d_discret_elem qbits_integer signed 0 u

/-- The constant `error_shift` of one block iteration (qde.py lines 289-292):
`(y1**2 + 2*y1*next_f[0]*dx) / dx**2 + np.sum(next_f[0:-1]**2)`, plus, when
`signed`, `(4**(qbits_integer-1) + 2**qbits_integer*(y1 + next_f[0]*dx)) /
dx**2`. -/
def error_shift (y1 : ℚ) (next_f : List ℚ) (dx : ℚ) (qbits_integer : ℕ)
    (signed : Bool) : ℚ :=
  (y1 ^ 2 + 2 * y1 * next_f.getD 0 0 * dx) / dx ^ 2
    + (next_f.dropLast.map fun v => v ^ 2).sum
    + (if signed then
        ((4 : ℚ) ^ ((qbits_integer : ℤ) - 1)
          + (2 : ℚ) ^ qbits_integer * (y1 + next_f.getD 0 0 * dx)) / dx ^ 2
      else 0)

/-- One iteration of the block loop of `solve` (qde.py lines 280-304) at loop
index `i`, acting on the state `(solution, error)`: propagates the boundary
`y1 = solution[i-1]`, slices `next_f = f[i-1 : next_i]` with
`next_i = min(i + points_per_qubo, len(f))`, builds and samples the QUBO,
writes the decoded values into `solution[i:next_i]`, and accumulates
`solution_energy + error_shift` into `error`. -/
def solve_step (sampler : List (List ℚ) → List Sample) (f : List ℚ) (dx : ℚ)
    (qbits_integer : ℕ) (signed : Bool) (points_per_qubo : ℕ)
    (average_solutions : Bool) (H_discret_elem : List (List ℚ))
    (d_discret_elem : List ℚ) (st : (ℕ → ℚ) × ℚ) (i : ℕ) : (ℕ → ℚ) × ℚ :=
  let y1 := st.1 (i - 1)
  let next_i := min (i + points_per_qubo) f.length
  let next_f := (f.drop (i - 1)).take (next_i - (i - 1))
  let samples := sampler (build_qubo_matrix next_f dx y1 H_discret_elem d_discret_elem signed)
  let vals := block_values samples d_discret_elem qbits_integer signed average_solutions
  (fun k => if i ≤ k ∧ k < next_i then vals (k - i) else st.1 k,
   st.2 + solution_energy samples average_solutions
     + error_shift y1 next_f dx qbits_integer signed)

/-- The Python loop header `range(1, n, step)` of `solve` for a positive
step: the indices `1, 1 + step, ...` below `n`, of which there are
`ceil((n - 1) / step)`. -/
def pyRange1 (n step : ℕ) : List ℕ :=
  (List.range ((n - 1 + step - 1) / step)).map fun k => 1 + step * k

/-- Embedding of `solve` (qde.py lines 257-306).  `np.empty(len(f))` is the
arbitrary function `init` (uninitialised memory); `solution[0] = y1` and the
block-loop writes update it pointwise.  `range(1, len(f), points_per_qubo)`
raises `ValueError` when `points_per_qubo == 0`, modelled by `none`.  The
external sampler is the function argument `sampler`. -/
def solve (sampler : List (List ℚ) → List Sample) (f : List ℚ) (dx y1 : ℚ)
    (qbits_integer qbits_decimal : ℕ) (signed : Bool) (points_per_qubo : ℕ)
    (average_solutions : Bool) (init : ℕ → ℚ) : Option ((ℕ → ℚ) × ℚ) :=
  if points_per_qubo = 0 then none
  else
    some ((pyRange1 f.length points_per_qubo).foldl
      (solve_step sampler f dx qbits_integer signed points_per_qubo average_solutions
        (build_discretization_matrix qbits_integer qbits_decimal)
        (build_discretization_vector qbits_integer qbits_decimal))
      (fun k => if k = 0 then y1 else init k, 0))

/-- Pointwise model of the numpy accumulation `H[a, b] += v` on a matrix
represented as a total function (all guarded uses have nonnegative
indices). -/
def addAt2 (H : ℤ → ℤ → ℚ) (a b : ℤ) (v : ℚ) : ℤ → ℤ → ℚ :=
  fun i j => if i = a ∧ j = b then H i j + v else H i j

/-- Pointwise model of the numpy accumulation `d[a] += v` on a vector
represented as a total function. -/
def addAt1 (d : ℤ → ℚ) (a : ℤ) (v : ℚ) : ℤ → ℚ :=
  fun i => if i = a then d i + v else d i

/-- Embedding of `add_linear_terms` (qde.py lines 89-113).  The 2D array
`funcs` is a function of (row, column) with `nfuncs` rows; `d` is the
accumulated quadratic minimization vector.  A `NotImplementedError` escaping
from the stencil lookup is `none`. -/
def add_linear_terms (fd : ℤ → ℤ → List ℚ) (d0 : ℤ → ℚ) (point_ind : ℕ)
    (last_unknown_ind_global : ℤ) (funcs : ℕ → ℕ → ℚ) (nfuncs : ℕ) (dx : ℚ)
    (known_points : List ℚ) (max_considered_accuracy : ℤ) : Option (ℤ → ℚ) :=
  let first_unknown_ind_global : ℤ := known_points.length
  List.foldlM
    (fun d deriv_ind =>
      let r := get_deriv_range deriv_ind point_ind last_unknown_ind_global
        max_considered_accuracy
      if r.2.2.2 < first_unknown_ind_global ∨ r.2.1 < 1 then some d
      else
        (get_finite_difference_coefficients fd r.1 r.2.1).bind fun coeffs =>
          let func_factor := 2 * funcs 0 point_ind * funcs deriv_ind.toNat point_ind
            / dx ^ r.1
          some ((List.range r.2.2.1.toNat).foldl
            (fun d (scheme_ind : ℕ) =>
              let unknown_ind : ℤ := point_ind + (scheme_ind : ℤ) - first_unknown_ind_global
              if unknown_ind < 0 then d
              else addAt1 d unknown_ind (func_factor * coeffs.getD scheme_ind 0))
            d))
    d0 ((List.range' 1 (nfuncs - 1)).map fun (k : ℕ) => (k : ℤ))

/-- Embedding of `add_quadratic_terms` (qde.py lines 116-154) as written.
Line 129 assigns `first_unknown_index_global`, but lines 137, 142, 144 and
153 read `first_unknown_ind_global` — a name this function never defines
(the identically named variables at lines 101 and 172 are locals of
`add_linear_terms` and of the builder, not module globals).  Evaluating the
guard of line 137 therefore raises `NameError`; that guard is the first
statement of every iteration of the inner term loop, so the whole inner
loop body is the raising outcome `none` (line 136's `get_deriv_range` call
before it is pure and cannot fail).  Consequently the function fails as
soon as the inner loop is entered — that is, whenever `funcs` has at least
two rows, since term 1 always has `accuracy_order = 1` — and only an empty
term loop returns the accumulators unchanged.  The evidently intended
computation (line 129's name read at the four use sites) is
`add_quadratic_terms_intended` below. -/
def add_quadratic_terms (fd : ℤ → ℤ → List ℚ) (H0 : ℤ → ℤ → ℚ) (d0 : ℤ → ℚ)
    (point_ind : ℕ) (last_unknown_ind_global : ℤ) (funcs : ℕ → ℕ → ℚ)
    (nfuncs : ℕ) (dx : ℚ) (known_points : List ℚ)
    (max_considered_accuracy : ℤ) : Option ((ℤ → ℤ → ℚ) × (ℤ → ℚ)) :=
  List.foldlM
    (fun st1 deriv_ind1 =>
      let r1 := get_deriv_range deriv_ind1 point_ind last_unknown_ind_global
        max_considered_accuracy
      if r1.2.1 < 1 then some st1
      else
        (get_finite_difference_coefficients fd r1.1 r1.2.1).bind fun _coeffs1 =>
          List.foldlM
            (fun _st2 (_deriv_ind2 : ℤ) =>
              (none : Option ((ℤ → ℤ → ℚ) × (ℤ → ℚ))))
            st1 ((List.range' 1 (nfuncs - 1)).map fun (k : ℕ) => (k : ℤ)))
    (H0, d0) ((List.range' 1 (nfuncs - 1)).map fun (k : ℕ) => (k : ℤ))

/-- `add_quadratic_terms` as evidently intended (and as its docstring and
the spec describe it): qde.py lines 116-154 with the four occurrences of
the undefined name `first_unknown_ind_global` (lines 137, 142, 144, 153)
reading the `first_unknown_index_global` defined at line 129 — the
one-character slip that makes the real function raise `NameError`.
Accumulates into the pair `(H, d)`: the inner pure double loop distributes
the stencil-coefficient outer product over the two scheme footprints; both
indices unknown goes to `H`, exactly one known folds into `d` weighted by
the known value, both known is skipped. -/
def add_quadratic_terms_intended (fd : ℤ → ℤ → List ℚ) (H0 : ℤ → ℤ → ℚ)
    (d0 : ℤ → ℚ) (point_ind : ℕ) (last_unknown_ind_global : ℤ)
    (funcs : ℕ → ℕ → ℚ) (nfuncs : ℕ) (dx : ℚ) (known_points : List ℚ)
    (max_considered_accuracy : ℤ) : Option ((ℤ → ℤ → ℚ) × (ℤ → ℚ)) :=
  let fu : ℤ := known_points.length
  List.foldlM
    (fun st1 deriv_ind1 =>
      let r1 := get_deriv_range deriv_ind1 point_ind last_unknown_ind_global
        max_considered_accuracy
      if r1.2.1 < 1 then some st1
      else
        (get_finite_difference_coefficients fd r1.1 r1.2.1).bind fun coeffs1 =>
          List.foldlM
            (fun st2 deriv_ind2 =>
              let r2 := get_deriv_range deriv_ind2 point_ind last_unknown_ind_global
                max_considered_accuracy
              if (r1.2.2.2 < fu ∧ r2.2.2.2 < fu) ∨ r2.2.1 < 1 then some st2
              else
                (get_finite_difference_coefficients fd r2.1 r2.2.1).bind fun coeffs2 =>
                  let func_factor := funcs deriv_ind1.toNat point_ind
                    * funcs deriv_ind2.toNat point_ind / dx ^ (r1.1 + r2.1)
                  some ((List.range r1.2.2.1.toNat).foldl
                    (fun stA (scheme_ind1 : ℕ) =>
                      let unknown_ind1 : ℤ := point_ind + (scheme_ind1 : ℤ) - fu
                      (List.range r2.2.2.1.toNat).foldl
                        (fun stB (scheme_ind2 : ℕ) =>
                          let unknown_ind2 : ℤ := point_ind + (scheme_ind2 : ℤ) - fu
                          if unknown_ind1 < 0 ∧ unknown_ind2 < 0 then stB
                          else
                            let h_factor := func_factor * coeffs1.getD scheme_ind1 0
                              * coeffs2.getD scheme_ind2 0
                            if 0 ≤ unknown_ind1 ∧ 0 ≤ unknown_ind2 then
                              (addAt2 stB.1 unknown_ind1 unknown_ind2 h_factor, stB.2)
                            else
                              (stB.1, addAt1 stB.2 (max unknown_ind1 unknown_ind2)
                                (h_factor * known_points.getD
                                  (min unknown_ind1 unknown_ind2 + fu).toNat 0)))
                        stA)
                    st2))
            st1 ((List.range' 1 (nfuncs - 1)).map fun (k : ℕ) => (k : ℤ)))
    (H0, d0) ((List.range' 1 (nfuncs - 1)).map fun (k : ℕ) => (k : ℤ))

/-- Embedding of `build_quadratic_minimization_matrices_general` (qde.py
lines 157-180) as written: starting from `H = np.zeros((unknowns,
unknowns))` and `d = np.zeros(unknowns)` (zero functions), every grid point
up to the last unknown contributes its linear and quadratic terms in
sequence.  Because `add_quadratic_terms` raises `NameError` whenever its
term loop is entered, this builder fails for every equation specification
with at least two function rows and a nonempty point loop
(`build_general_none`); the repaired variant is
`build_quadratic_minimization_matrices_general_intended`. -/
def build_quadratic_minimization_matrices_general (fd : ℤ → ℤ → List ℚ)
    (funcs : ℕ → ℕ → ℚ) (nfuncs npoints : ℕ) (dx : ℚ) (known_points : List ℚ)
    (max_considered_accuracy : ℤ) (points_per_step : ℕ) :
    Option ((ℤ → ℤ → ℚ) × (ℤ → ℚ)) :=
  let first_unknown_ind_global : ℤ := known_points.length
  let unknowns : ℤ := min (points_per_step : ℤ) ((npoints : ℤ) - first_unknown_ind_global)
  let last_unknown_ind_global : ℤ := first_unknown_ind_global + unknowns - 1
  List.foldlM
    (fun st point_ind => do
      let d1 ← add_linear_terms fd st.2 point_ind last_unknown_ind_global funcs nfuncs
        dx known_points max_considered_accuracy
      add_quadratic_terms fd st.1 d1 point_ind last_unknown_ind_global funcs nfuncs
        dx known_points max_considered_accuracy)
    (fun _ _ => 0, fun _ => 0) (List.range (last_unknown_ind_global + 1).toNat)

/-- The general builder with the intended `add_quadratic_terms` (the
`NameError` typo repaired, nothing else changed): what qde.py lines 157-180
evidently mean to compute. -/
def build_quadratic_minimization_matrices_general_intended (fd : ℤ → ℤ → List ℚ)
    (funcs : ℕ → ℕ → ℚ) (nfuncs npoints : ℕ) (dx : ℚ) (known_points : List ℚ)
    (max_considered_accuracy : ℤ) (points_per_step : ℕ) :
    Option ((ℤ → ℤ → ℚ) × (ℤ → ℚ)) :=
  let first_unknown_ind_global : ℤ := known_points.length
  let unknowns : ℤ := min (points_per_step : ℤ) ((npoints : ℤ) - first_unknown_ind_global)
  let last_unknown_ind_global : ℤ := first_unknown_ind_global + unknowns - 1
  List.foldlM
    (fun st point_ind => do
      let d1 ← add_linear_terms fd st.2 point_ind last_unknown_ind_global funcs nfuncs
        dx known_points max_considered_accuracy
      add_quadratic_terms_intended fd st.1 d1 point_ind last_unknown_ind_global funcs
        nfuncs dx known_points max_considered_accuracy)
    (fun _ _ => 0, fun _ => 0) (List.range (last_unknown_ind_global + 1).toNat)

/-- Proof abbreviation: the coefficient mass a term's stencil at grid point
`point_ind` places on the unknown-relative index `i` (only nonnegative
indices receive mass, matching the `unknown_ind < 0` guards). -/
def scheme_profile (point_ind : ℕ) (fu : ℤ) (c : List ℚ) (len : ℕ) (i : ℤ) : ℚ :=
  ((List.range len).map fun (s : ℕ) =>
    if i = (point_ind : ℤ) + s - fu ∧ 0 ≤ i then c.getD s 0 else 0).sum

/-- Proof abbreviation: the stencil coefficients selected for equation term
`k` at grid point `point_ind` (empty when the lookup fails). -/
def coeffs_of (fd : ℤ → ℤ → List ℚ) (k : ℤ) (point_ind : ℕ) (lu mca : ℤ) :
    List ℚ :=
  (get_finite_difference_coefficients fd (get_deriv_range k point_ind lu mca).1
    (get_deriv_range k point_ind lu mca).2.1).getD []

/-- Proof abbreviation: the total contribution of the ordered term pair
`(k1, k2)` at grid point `point_ind` to entry `(i, j)` of `H` (zero when the
pair is skipped by the inner guard of `add_quadratic_terms`). -/
def quad_pair_term (fd : ℤ → ℤ → List ℚ) (funcs : ℕ → ℕ → ℚ) (point_ind : ℕ)
    (lu fu : ℤ) (dx : ℚ) (mca : ℤ) (k1 k2 : ℤ) (i j : ℤ) : ℚ :=
  if ((get_deriv_range k1 point_ind lu mca).2.2.2 < fu
        ∧ (get_deriv_range k2 point_ind lu mca).2.2.2 < fu)
      ∨ (get_deriv_range k2 point_ind lu mca).2.1 < 1 then 0
  else
    funcs k1.toNat point_ind * funcs k2.toNat point_ind
        / dx ^ ((get_deriv_range k1 point_ind lu mca).1
          + (get_deriv_range k2 point_ind lu mca).1)
      * scheme_profile point_ind fu (coeffs_of fd k1 point_ind lu mca)
          (get_deriv_range k1 point_ind lu mca).2.2.1.toNat i
      * scheme_profile point_ind fu (coeffs_of fd k2 point_ind lu mca)
          (get_deriv_range k2 point_ind lu mca).2.2.1.toNat j

/-- Proof abbreviation: `quad_pair_term` additionally guarded by the outer
skip condition of `add_quadratic_terms` (`accuracy_order < 1` for the first
term of the pair). -/
def quad_term (fd : ℤ → ℤ → List ℚ) (funcs : ℕ → ℕ → ℚ) (point_ind : ℕ)
    (lu fu : ℤ) (dx : ℚ) (mca : ℤ) (k1 k2 : ℤ) (i j : ℤ) : ℚ :=
  if (get_deriv_range k1 point_ind lu mca).2.1 < 1 then 0
  else quad_pair_term fd funcs point_ind lu fu dx mca k1 k2 i j

/-- Proof abbreviation: the total contribution of grid point `point_ind` to
entry `(i, j)` of `H`, summed over all ordered pairs of equation terms. -/
def point_term (fd : ℤ → ℤ → List ℚ) (funcs : ℕ → ℕ → ℚ) (nfuncs point_ind : ℕ)
    (lu fu : ℤ) (dx : ℚ) (mca : ℤ) (i j : ℤ) : ℚ :=
  (((List.range' 1 (nfuncs - 1)).map fun (k : ℕ) => (k : ℤ)).map fun k1 =>
    (((List.range' 1 (nfuncs - 1)).map fun (k : ℕ) => (k : ℤ)).map fun k2 =>
      quad_term fd funcs point_ind lu fu dx mca k1 k2 i j).sum).sum

/-! ## Theorems -/

/-- C3, counterexample: at `term_index = 1`, `point_index = 1`,
`last_unknown_index = 0`, `max_considered_accuracy = 1`, `get_deriv_range`
returns `accuracy_order = 1` (so not `< 1`) although
`last_unknown_index - point_index < deriv_order` fails to hold is false:
`0 - 1 < 0` is true, so the claimed equivalence is violated for the shift
term (`deriv_order = 0`) whenever `point_index` exceeds
`last_unknown_index`. -/
theorem get_deriv_range_accuracy_iff_cex :
    ¬ (((get_deriv_range 1 1 0 1).2.1 < 1) ↔ ((0 : ℤ) - 1 < 1 - 1)) := by
  decide

/-- C3, amended: for every `term_index ≥ 2` (i.e. `deriv_order ≥ 1`) and
`max_considered_accuracy ≥ 1`, `get_deriv_range` returns
`accuracy_order < 1` if and only if fewer than `deriv_order` future points
remain before `last_unknown_index`
(`last_unknown_index - point_index < deriv_order` with
`deriv_order = term_index - 1`); for `term_index = 1` (`deriv_order = 0`)
the returned accuracy order is always `1`. -/
theorem get_deriv_range_accuracy_iff (ti pi lu mca : ℤ) (hmca : 1 ≤ mca) :
    (2 ≤ ti → ((get_deriv_range ti pi lu mca).2.1 < 1 ↔ lu - pi < ti - 1)) ∧
    (ti = 1 → (get_deriv_range ti pi lu mca).2.1 = 1) := by
  constructor
  · intro hti
    have h : ¬(ti - 1 = 0) := by omega
    simp only [get_deriv_range, h, if_false, min_lt_iff]
    omega
  · intro hti
    subst hti
    simp [get_deriv_range]

/-- Witness for the amended C3 theorem at `term_index = 2`,
`point_index = 0`, `last_unknown_index = 3`, `max_considered_accuracy = 1`. -/
theorem get_deriv_range_accuracy_iff_witness :
    (1 : ℤ) ≤ 1 ∧
      ((2 ≤ (2 : ℤ) → ((get_deriv_range 2 0 3 1).2.1 < 1 ↔ (3 : ℤ) - 0 < 2 - 1)) ∧
        ((2 : ℤ) = 1 → (get_deriv_range 2 0 3 1).2.1 = 1)) :=
  ⟨le_refl 1, get_deriv_range_accuracy_iff 2 0 3 1 (le_refl 1)⟩

/-- C6: for every pair accepted by `get_finite_difference_coefficients`
(with `accuracy_order ≥ 1`, and the external even-order collaborator
returning, at the consulted pair, a scheme of the documented length with
zero sum), the returned coefficient sequence has length
`deriv_order + accuracy_order` and sums to `0` when `deriv_order ≥ 1`, and
is exactly `[1]` when `deriv_order = 0`. -/
theorem get_finite_difference_coefficients_shape (fd : ℤ → ℤ → List ℚ)
    (deriv_order accuracy_order : ℤ)
    (hfd : 2 ∣ accuracy_order → 1 ≤ deriv_order →
      ((fd deriv_order accuracy_order).length : ℤ) = deriv_order + accuracy_order ∧
        (fd deriv_order accuracy_order).sum = 0)
    (coeffs : List ℚ)
    (h : get_finite_difference_coefficients fd deriv_order accuracy_order = some coeffs) :
    (1 ≤ deriv_order →
      (coeffs.length : ℤ) = deriv_order + accuracy_order ∧ coeffs.sum = 0) ∧
    (deriv_order = 0 → coeffs = [1]) := by
  unfold get_finite_difference_coefficients at h
  split_ifs at h with h1 h2 h3 h4 h5 h6 h7 h8 h9 <;>
    first
      | exact Option.noConfusion h
      | (obtain rfl := Option.some_inj.mp h
         refine ⟨fun hd => ?_, fun hd0 => ?_⟩ <;>
           first
             | exact hfd (Int.dvd_of_emod_eq_zero h2) hd
             | rfl
             | (exfalso; omega)
             | exact ⟨by simp only [List.length_cons, List.length_nil]; omega,
                 by norm_num⟩)

/-- Witness for the C6 theorem at `deriv_order = 1`, `accuracy_order = 1`
(the first-order forward difference `[-1, 1]`). -/
theorem get_finite_difference_coefficients_shape_witness :
    (1 ≤ (1 : ℤ) →
        ((([-1, 1] : List ℚ).length : ℤ) = 1 + 1 ∧ ([-1, 1] : List ℚ).sum = 0)) ∧
      ((1 : ℤ) = 0 → ([-1, 1] : List ℚ) = [1]) :=
  get_finite_difference_coefficients_shape (fun _ _ => []) 1 1
    (fun hdvd _ => absurd hdvd (by omega)) [-1, 1] rfl

/-- C7: for every odd `accuracy_order` and `deriv_order ≥ 1` whose
combination is none of `(1,1)`, `(2,1)`, `(1,3)`, `(1,5)`,
`get_finite_difference_coefficients` fails (raises, modelled by `none`) at
lookup time, for any behaviour of the even-order collaborator; in
particular it never returns coefficients of a degraded lower order. -/
theorem get_finite_difference_coefficients_unsupported (fd : ℤ → ℤ → List ℚ)
    (deriv_order accuracy_order : ℤ) (hodd : accuracy_order % 2 = 1)
    (hd : 1 ≤ deriv_order)
    (hnot : ¬((deriv_order = 1 ∧ accuracy_order = 1)
      ∨ (deriv_order = 2 ∧ accuracy_order = 1)
      ∨ (deriv_order = 1 ∧ accuracy_order = 3)
      ∨ (deriv_order = 1 ∧ accuracy_order = 5))) :
    get_finite_difference_coefficients fd deriv_order accuracy_order = none := by
  unfold get_finite_difference_coefficients
  split_ifs with h1 h2 h3 h4 h5 h6 h7 h8 h9 <;> first | rfl | (exfalso; omega)

/-- Witness for the C7 theorem at `deriv_order = 3`, `accuracy_order = 1`. -/
theorem get_finite_difference_coefficients_unsupported_witness :
    (1 : ℤ) % 2 = 1 ∧ (1 : ℤ) ≤ 3 ∧
      get_finite_difference_coefficients (fun _ _ => []) 3 1 = none :=
  ⟨by decide, by decide,
    get_finite_difference_coefficients_unsupported (fun _ _ => []) 3 1 (by decide)
      (by decide) (by omega)⟩

/-- C2, counterexample: with `qbits_integer = qbits_decimal = 0` both
discretization builders return normally (an empty matrix/vector) instead of
raising, and `solve` called with the invalid grid step `dx = -1 ≤ 0` (and a
valid one-integer-one-decimal-qubit discretization, so every array access
of the block iteration is in range) runs its block loop to completion and
produces a result: no `ConfigurationError` is raised before matrix
construction — indeed no such validation, and no such exception class,
exists anywhere in the code. -/
theorem no_configuration_error_cex :
    build_discretization_vector 0 0 = [] ∧ build_discretization_matrix 0 0 = [] ∧
      (solve (fun _ => [⟨[0, 0], 0, 1⟩]) [1, 2] (-1) 0 1 1 true 1 false
        (fun _ => 0)).isSome = true :=
  ⟨rfl, rfl, rfl⟩

/-- C2, amended: the code performs no static-configuration validation and
defines no `ConfigurationError`: the discretization builders accept every
qubit configuration, including `qbits_integer + qbits_decimal = 0`, and
simply return a vector and matrix with `qbits_integer + qbits_decimal` rows
(empty when that sum is zero), and `solve` raises nothing before matrix
construction begins — with `dx ≤ 0` it proceeds through matrix construction
and returns a result.  The failures that degenerate configurations do cause
are of other kinds and come later: `points_per_qubo = 0` raises `ValueError`
from `range`, and `qbits_integer + qbits_decimal = 0` with the default
`signed = True` raises `IndexError` at `d_discret_elem[0]` (qde.py line 249)
during, not before, the first block's matrix construction. -/
theorem build_discretization_no_validation (qi qd : ℕ) :
    (build_discretization_vector qi qd).length = qi + qd ∧
      (build_discretization_matrix qi qd).length = qi + qd := by
  constructor
  · rw [build_discretization_vector, List.length_map, j_range, List.length_map,
      List.length_range]
  · rw [build_discretization_matrix, List.length_map, j_range, List.length_map,
      List.length_range]

/-- C5: the discretization vector has one entry `2 ^ (-j)` for each
`j = k - qbits_integer + 1`, `k < qbits_integer + qbits_decimal` (hence
length `qbits_integer + qbits_decimal`), and the discretization matrix is
its outer product: entry `(k1, k2)` equals `d~[k1] * d~[k2]`. -/
theorem discretization_outer_product (qi qd k1 k2 : ℕ)
    (h1 : k1 < qi + qd) (h2 : k2 < qi + qd) :
    (build_discretization_vector qi qd).length = qi + qd ∧
    (build_discretization_matrix qi qd).length = qi + qd ∧
    ((build_discretization_matrix qi qd).getD k1 []).length = qi + qd ∧
    (build_discretization_vector qi qd).getD k1 0 = (2 : ℚ) ^ (-((k1 : ℤ) - qi + 1)) ∧
    ((build_discretization_matrix qi qd).getD k1 []).getD k2 0
      = (build_discretization_vector qi qd).getD k1 0
        * (build_discretization_vector qi qd).getD k2 0 := by
  have hjlen : (j_range qi qd).length = qi + qd := by
    rw [j_range, List.length_map, List.length_range]
  have hvlen : (build_discretization_vector qi qd).length = qi + qd := by
    rw [build_discretization_vector, List.length_map, hjlen]
  have hmlen : (build_discretization_matrix qi qd).length = qi + qd := by
    rw [build_discretization_matrix, List.length_map, hjlen]
  have hv : ∀ k : ℕ, k < qi + qd →
      (build_discretization_vector qi qd).getD k 0 = (2 : ℚ) ^ (-((k : ℤ) - qi + 1)) := by
    intro k hk
    have hlen : k < (build_discretization_vector qi qd).length := by omega
    rw [List.getD_eq_getElem _ _ hlen]
    simp only [build_discretization_vector, List.getElem_map, j_range, List.getElem_range]
  have hrow : (build_discretization_matrix qi qd).getD k1 []
      = (j_range qi qd).map fun j2 => (2 : ℚ) ^ (-(((k1 : ℤ) - qi + 1) + j2)) := by
    have hlen : k1 < (build_discretization_matrix qi qd).length := by omega
    rw [List.getD_eq_getElem _ _ hlen]
    simp only [build_discretization_matrix, List.getElem_map, j_range, List.getElem_range]
  refine ⟨hvlen, hmlen, ?_, hv k1 h1, ?_⟩
  · rw [hrow, List.length_map, hjlen]
  · rw [hrow, hv k1 h1, hv k2 h2]
    have hlen2 : k2 < ((j_range qi qd).map
        fun j2 => (2 : ℚ) ^ (-(((k1 : ℤ) - qi + 1) + j2))).length := by
      rw [List.length_map, hjlen]
      omega
    rw [List.getD_eq_getElem _ _ hlen2]
    simp only [List.getElem_map, j_range, List.getElem_range]
    rw [neg_add, zpow_add₀ (two_ne_zero)]

/-- Witness for the C5 theorem at `qbits_integer = qbits_decimal = 1`,
entry `(0, 1)`. -/
theorem discretization_outer_product_witness :
    0 < 1 + 1 ∧ 1 < 1 + 1 ∧
      ((build_discretization_vector 1 1).length = 1 + 1 ∧
        (build_discretization_matrix 1 1).length = 1 + 1 ∧
        ((build_discretization_matrix 1 1).getD 0 []).length = 1 + 1 ∧
        (build_discretization_vector 1 1).getD 0 0 = (2 : ℚ) ^ (-((0 : ℤ) - 1 + 1)) ∧
        ((build_discretization_matrix 1 1).getD 0 []).getD 1 0
          = (build_discretization_vector 1 1).getD 0 0
            * (build_discretization_vector 1 1).getD 1 0) :=
  ⟨Nat.zero_lt_two, Nat.one_lt_two,
    discretization_outer_product 1 1 0 1 Nat.zero_lt_two Nat.one_lt_two⟩

/-- C8: in every block iteration of `solve` with signed representation
enabled, the amount added to the error accumulator is the solver-reported
energy plus an `error_shift` consisting of the unsigned constant term
`(y1^2 + 2*y1*f_block[0]*dx)/dx^2 + sum(f_block[0:-1]^2)` plus the
recentering offset `(4^(qbits_integer-1) + 2^qbits_integer*(y1 +
f_block[0]*dx))/dx^2`, where `y1 = solution[i-1]` is the propagated
boundary and `f_block = f[i-1 : next_i]` the block's slice of `f`. -/
theorem solve_step_signed_error_shift (sampler : List (List ℚ) → List Sample)
    (f : List ℚ) (dx : ℚ) (qbits_integer ppq : ℕ) (avg : Bool)
    (Hd : List (List ℚ)) (dd : List ℚ) (sol : ℕ → ℚ) (err : ℚ) (i : ℕ) :
    (solve_step sampler f dx qbits_integer true ppq avg Hd dd (sol, err) i).2
      = err
        + solution_energy
            (sampler (build_qubo_matrix
              ((f.drop (i - 1)).take (min (i + ppq) f.length - (i - 1))) dx
              (sol (i - 1)) Hd dd true)) avg
        + ((sol (i - 1)) ^ 2
            + 2 * (sol (i - 1))
              * ((f.drop (i - 1)).take (min (i + ppq) f.length - (i - 1))).getD 0 0
              * dx) / dx ^ 2
        + (((f.drop (i - 1)).take
            (min (i + ppq) f.length - (i - 1))).dropLast.map fun v => v ^ 2).sum
        + ((4 : ℚ) ^ ((qbits_integer : ℤ) - 1)
            + (2 : ℚ) ^ qbits_integer
              * (sol (i - 1)
                + ((f.drop (i - 1)).take (min (i + ppq) f.length - (i - 1))).getD 0 0
                  * dx)) / dx ^ 2 := by
  simp only [solve_step, error_shift, if_true]
  ring

/-- Every index produced by the loop header `range(1, n, step)` is at least
`1` (helper). -/
theorem pyRange1_one_le (n step i : ℕ) (h : i ∈ pyRange1 n step) : 1 ≤ i := by
  simp only [pyRange1, List.mem_map, List.mem_range] at h
  obtain ⟨k, hk, rfl⟩ := h
  omega

/-- Every index produced by the loop header `range(1, n, step)` is below `n`
(helper). -/
theorem pyRange1_lt (n step k : ℕ) (hs : 1 ≤ step)
    (hk : k < (n - 1 + step - 1) / step) : 1 + step * k < n := by
  have h1 : step * (k + 1) ≤ step * ((n - 1 + step - 1) / step) :=
    Nat.mul_le_mul_left step hk
  have h2 : ((n - 1 + step - 1) / step) * step ≤ n - 1 + step - 1 :=
    Nat.div_mul_le_self _ _
  have h3 : step * ((n - 1 + step - 1) / step)
      = ((n - 1 + step - 1) / step) * step := Nat.mul_comm _ _
  have h4 : step * (k + 1) = step * k + step := by ring
  omega

/-- The loop `range(1, n, step)` covers the whole interval `[1, n)`:
`step * count` reaches at least `n - 1` (helper). -/
theorem pyRange1_covers (n step : ℕ) (hs : 1 ≤ step) :
    n - 1 ≤ step * ((n - 1 + step - 1) / step) := by
  have hd := Nat.div_add_mod (n - 1 + step - 1) step
  have hm : (n - 1 + step - 1) % step < step := Nat.mod_lt _ (by omega)
  omega

/-- The block loop of `solve` never writes index `0`: folding `solve_step`
over any list of indices that are all at least `1` leaves entry `0` of the
solution array unchanged (helper). -/
theorem solve_loop_keeps_entry_zero (sampler : List (List ℚ) → List Sample)
    (f : List ℚ) (dx : ℚ) (qbits_integer : ℕ) (signed : Bool) (ppq : ℕ)
    (avg : Bool) (Hd : List (List ℚ)) (dd : List ℚ) (l : List ℕ)
    (hl : ∀ i ∈ l, 1 ≤ i) (st : (ℕ → ℚ) × ℚ) :
    (l.foldl (solve_step sampler f dx qbits_integer signed ppq avg Hd dd) st).1 0
      = st.1 0 := by
  induction l generalizing st with
  | nil => rfl
  | cons i t ih =>
    rw [List.foldl_cons, ih (fun j hj => hl j (List.mem_cons_of_mem _ hj))]
    have hi : 1 ≤ i := hl i (List.mem_cons_self _ _)
    simp only [solve_step]
    rw [if_neg]
    intro hc
    omega

/-- C10: whenever `solve` returns, the returned solution satisfies
`solution[0] = y1`, the original boundary-condition argument: index `0` is
assigned before the block loop and every block iteration writes only
indices `i` through `next_i - 1` with `i ≥ 1`. -/
theorem solve_boundary_preserved (sampler : List (List ℚ) → List Sample)
    (f : List ℚ) (dx y1 : ℚ) (qbits_integer qbits_decimal : ℕ)
    (signed : Bool) (ppq : ℕ) (avg : Bool) (init : ℕ → ℚ)
    (hf : 1 ≤ f.length) (r : (ℕ → ℚ) × ℚ)
    (h : solve sampler f dx y1 qbits_integer qbits_decimal signed ppq avg init
      = some r) :
    r.1 0 = y1 := by
  unfold solve at h
  split_ifs at h with hppq
  obtain rfl := Option.some_inj.mp h
  rw [solve_loop_keeps_entry_zero _ _ _ _ _ _ _ _ _ _
    (fun i hi => pyRange1_one_le _ _ i hi)]
  rfl

/-- Witness for the C10 theorem: a two-point grid with a stub sampler and
junk-initialised memory keeps `solution[0] = 5`. -/
theorem solve_boundary_preserved_witness :
    1 ≤ ([1, 2] : List ℚ).length ∧
      ((solve (fun _ => [⟨[0, 0], 0, 1⟩]) [1, 2] 1 5 1 1 false 1 false
        fun _ => 9).get rfl).1 0 = 5 :=
  ⟨by decide,
    solve_boundary_preserved (fun _ => [⟨[0, 0], 0, 1⟩]) [1, 2] 1 5 1 1 false 1 false
      (fun _ => 9) (by decide)
      ((solve (fun _ => [⟨[0, 0], 0, 1⟩]) [1, 2] 1 5 1 1 false 1 false
        fun _ => 9).get rfl)
      (@Option.some_get _ (solve (fun _ => [⟨[0, 0], 0, 1⟩]) [1, 2] 1 5 1 1 false 1
        false fun _ => 9) rfl).symm⟩

/-- One block iteration preserves agreement of two runs of `solve` that
differ only in the uninitialised memory: if the two solution arrays agree
strictly below the write index `i`, then after the iteration they agree
strictly below `min (i + ppq) (len f)` (helper). -/
theorem solve_step_agree (sampler : List (List ℚ) → List Sample)
    (f : List ℚ) (dx : ℚ) (qbits_integer : ℕ) (signed : Bool) (ppq : ℕ)
    (avg : Bool) (Hd : List (List ℚ)) (dd : List ℚ)
    (i : ℕ) (hi : 1 ≤ i) (st1 st2 : (ℕ → ℚ) × ℚ)
    (hagree : ∀ k, k < i → st1.1 k = st2.1 k) :
    ∀ k, k < min (i + ppq) f.length →
      (solve_step sampler f dx qbits_integer signed ppq avg Hd dd st1 i).1 k
        = (solve_step sampler f dx qbits_integer signed ppq avg Hd dd st2 i).1 k := by
  intro k hk
  have hy : st1.1 (i - 1) = st2.1 (i - 1) := hagree _ (by omega)
  simp only [solve_step]
  rw [hy]
  by_cases hc : i ≤ k ∧ k < min (i + ppq) f.length
  · rw [if_pos hc, if_pos hc]
  · rw [if_neg hc, if_neg hc]
    exact hagree k (by omega)

/-- Agreement of two runs of the block loop over the first `t` iterations
(helper): runs starting from states that agree at index `0` agree strictly
below `1 + ppq * t` (capped by the grid size) after `t` iterations. -/
theorem solve_loop_agree (sampler : List (List ℚ) → List Sample)
    (f : List ℚ) (dx : ℚ) (qbits_integer : ℕ) (signed : Bool) (ppq : ℕ)
    (avg : Bool) (Hd : List (List ℚ)) (dd : List ℚ) (hppq : 1 ≤ ppq)
    (st1 st2 : (ℕ → ℚ) × ℚ)
    (hagree : ∀ k, k < min 1 f.length → st1.1 k = st2.1 k) :
    ∀ t, t ≤ (f.length - 1 + ppq - 1) / ppq →
      ∀ k, k < min (1 + ppq * t) f.length →
        (((List.range t).map fun j => 1 + ppq * j).foldl
          (solve_step sampler f dx qbits_integer signed ppq avg Hd dd) st1).1 k
          = (((List.range t).map fun j => 1 + ppq * j).foldl
            (solve_step sampler f dx qbits_integer signed ppq avg Hd dd) st2).1 k := by
  intro t
  induction t with
  | zero =>
    intro _ k hk
    exact hagree k (by simpa using hk)
  | succ t ih =>
    intro ht k hk
    rw [List.range_succ, List.map_append, List.foldl_append, List.foldl_append]
    simp only [List.map_cons, List.map_nil, List.foldl_cons, List.foldl_nil]
    have hlt : 1 + ppq * t < f.length := pyRange1_lt f.length ppq t hppq (by omega)
    have hexp : ppq * (t + 1) = ppq * t + ppq := by ring
    refine solve_step_agree sampler f dx qbits_integer signed ppq avg Hd dd
      (1 + ppq * t) (by omega) _ _ (fun k2 hk2 => ih (by omega) k2 (by omega)) k
      (by omega)

/-- C9: for every input with `len(f) ≥ 2` and `points_per_qubo ≥ 1`,
including when `len(f) - 1` is not divisible by `points_per_qubo`, the
block loop of `solve` stays in range — every loop index `i` satisfies
`1 ≤ i < len(f)` (so the boundary read `solution[i-1]` is in range) and
the write window `[i, next_i)` with `next_i = min(i + points_per_qubo,
len(f))` stays within the array — and the returned solution is fully
populated: entries `0 .. len(f)-1` never depend on the uninitialised
contents of `np.empty` (runs from any two initial memories agree there). -/
theorem solve_block_loop_safe (sampler : List (List ℚ) → List Sample)
    (f : List ℚ) (dx y1 : ℚ) (qbits_integer qbits_decimal : ℕ)
    (signed : Bool) (ppq : ℕ) (avg : Bool)
    (hf : 2 ≤ f.length) (hppq : 1 ≤ ppq) :
    (∀ i ∈ pyRange1 f.length ppq,
        1 ≤ i ∧ i < f.length ∧ min (i + ppq) f.length ≤ f.length) ∧
      ∀ init1 init2 r1 r2,
        solve sampler f dx y1 qbits_integer qbits_decimal signed ppq avg init1
          = some r1 →
        solve sampler f dx y1 qbits_integer qbits_decimal signed ppq avg init2
          = some r2 →
        ∀ k, k < f.length → r1.1 k = r2.1 k := by
  constructor
  · intro i hi
    have h1 := pyRange1_one_le _ _ i hi
    simp only [pyRange1, List.mem_map, List.mem_range] at hi
    obtain ⟨k, hk, rfl⟩ := hi
    exact ⟨h1, pyRange1_lt _ _ _ hppq hk, min_le_right _ _⟩
  · intro init1 init2 r1 r2 h1 h2 k hk
    unfold solve at h1 h2
    split_ifs at h1 h2 with hz
    obtain rfl := Option.some_inj.mp h1
    obtain rfl := Option.some_inj.mp h2
    have hcov := pyRange1_covers f.length ppq hppq
    exact solve_loop_agree sampler f dx qbits_integer signed ppq avg
      (build_discretization_matrix qbits_integer qbits_decimal)
      (build_discretization_vector qbits_integer qbits_decimal) hppq
      (fun j => if j = 0 then y1 else init1 j, 0)
      (fun j => if j = 0 then y1 else init2 j, 0)
      (fun k2 hk2 => by
        have hk0 : k2 = 0 := by omega
        subst hk0
        rfl)
      ((f.length - 1 + ppq - 1) / ppq) (le_refl _) k (by omega)

/-- Witness for the C9 theorem: a three-point grid with block size `2`
(final block shrinks to one point); two runs from different junk memories
agree at the last grid point. -/
theorem solve_block_loop_safe_witness :
    2 ≤ ([1, 2, 3] : List ℚ).length ∧ 1 ≤ 2 ∧
      ((solve (fun _ => [⟨[0, 0, 0, 0], 0, 1⟩]) [1, 2, 3] 1 0 1 1 false 2 false
          fun _ => 7).get rfl).1 2
        = ((solve (fun _ => [⟨[0, 0, 0, 0], 0, 1⟩]) [1, 2, 3] 1 0 1 1 false 2 false
          fun _ => 8).get rfl).1 2 :=
  ⟨by decide, by decide,
    (solve_block_loop_safe (fun _ => [⟨[0, 0, 0, 0], 0, 1⟩]) [1, 2, 3] 1 0 1 1
        false 2 false (by decide) (by decide)).2 (fun _ => 7) (fun _ => 8)
      ((solve (fun _ => [⟨[0, 0, 0, 0], 0, 1⟩]) [1, 2, 3] 1 0 1 1 false 2 false
        fun _ => 7).get rfl)
      ((solve (fun _ => [⟨[0, 0, 0, 0], 0, 1⟩]) [1, 2, 3] 1 0 1 1 false 2 false
        fun _ => 8).get rfl)
      (@Option.some_get _ (solve (fun _ => [⟨[0, 0, 0, 0], 0, 1⟩]) [1, 2, 3] 1 0 1 1
        false 2 false fun _ => 7) rfl).symm
      (@Option.some_get _ (solve (fun _ => [⟨[0, 0, 0, 0], 0, 1⟩]) [1, 2, 3] 1 0 1 1
        false 2 false fun _ => 8) rfl).symm 2 (by decide)⟩

/-- Length of a `flatMap` whose pieces all have the same length `m`
(helper for the `np.block` expansion). -/
theorem flatMap_length_const {α β : Type} (m : ℕ) (l : List α) (g : α → List β)
    (h : ∀ x ∈ l, (g x).length = m) : (l.flatMap g).length = l.length * m := by
  induction l with
  | nil => simp
  | cons x xs ih =>
    rw [List.flatMap_cons, List.length_append, h x (List.mem_cons_self _ _),
      ih (fun y hy => h y (List.mem_cons_of_mem _ hy)), List.length_cons]
    ring

/-- Entry `q * m + r` of a `flatMap` whose pieces all have length `m`
(helper for the `np.block` expansion). -/
theorem flatMap_getD_const {α β : Type} (m : ℕ) (d1 : α) (d2 : β) (l : List α)
    (g : α → List β) (h : ∀ x ∈ l, (g x).length = m) (q r : ℕ)
    (hq : q < l.length) (hr : r < m) :
    (l.flatMap g).getD (q * m + r) d2 = (g (l.getD q d1)).getD r d2 := by
  induction l generalizing q with
  | nil => exact absurd hq (by simp)
  | cons x xs ih =>
    rw [List.flatMap_cons]
    cases q with
    | zero =>
      rw [List.getD_append _ _ _ _ (by rw [h x (List.mem_cons_self _ _)]; omega)]
      simp
    | succ q2 =>
      have hxl : (g x).length = m := h x (List.mem_cons_self _ _)
      have harith : (q2 + 1) * m + r = (g x).length + (q2 * m + r) := by
        rw [hxl]
        ring
      rw [harith, List.getD_append_right _ _ _ _ (by omega)]
      have hsub : (g x).length + (q2 * m + r) - (g x).length = q2 * m + r := by omega
      rw [hsub]
      exact ih (fun y hy => h y (List.mem_cons_of_mem _ hy)) q2 (by simpa using hq)

/-- Length of the continuous quadratic minimization matrix (helper). -/
theorem bqmm_length (npoints : ℕ) (dx : ℚ) :
    (build_quadratic_minimization_matrix npoints dx).length = npoints - 1 := by
  rw [build_quadratic_minimization_matrix, List.length_map, List.length_range]

/-- Rows of the continuous quadratic minimization matrix (helper). -/
theorem bqmm_row (npoints : ℕ) (dx : ℚ) (i : ℕ) (hi : i < npoints - 1) :
    (build_quadratic_minimization_matrix npoints dx).getD i []
      = (List.range (npoints - 1)).map fun j =>
          (if i = npoints - 2 ∧ j = npoints - 2 then 1
           else (if i = j then 2 else 0) + (if j = i + 1 then -1 else 0)
             + (if i = j + 1 then -1 else 0)) / dx ^ 2 := by
  rw [List.getD_eq_getElem _ _ (by rw [bqmm_length]; omega)]
  simp only [build_quadratic_minimization_matrix, List.getElem_map, List.getElem_range]

/-- Entry formula for the continuous quadratic minimization matrix
(helper). -/
theorem bqmm_entry (npoints : ℕ) (dx : ℚ) (i j : ℕ) (hi : i < npoints - 1)
    (hj : j < npoints - 1) :
    ((build_quadratic_minimization_matrix npoints dx).getD i []).getD j 0
      = (if i = npoints - 2 ∧ j = npoints - 2 then 1
         else (if i = j then 2 else 0) + (if j = i + 1 then -1 else 0)
           + (if i = j + 1 then -1 else 0)) / dx ^ 2 := by
  rw [bqmm_row _ _ _ hi,
    List.getD_eq_getElem _ _ (by rw [List.length_map, List.length_range]; omega)]
  simp only [List.getElem_map, List.getElem_range]

/-- The continuous quadratic minimization matrix is symmetric (helper). -/
theorem bqmm_symm (npoints : ℕ) (dx : ℚ) (i j : ℕ) (hi : i < npoints - 1)
    (hj : j < npoints - 1) :
    ((build_quadratic_minimization_matrix npoints dx).getD i []).getD j 0
      = ((build_quadratic_minimization_matrix npoints dx).getD j []).getD i 0 := by
  rw [bqmm_entry _ _ _ _ hi hj, bqmm_entry _ _ _ _ hj hi]
  congr 1
  by_cases hA : i = npoints - 2 ∧ j = npoints - 2
  · have hA2 : j = npoints - 2 ∧ i = npoints - 2 := ⟨hA.2, hA.1⟩
    rw [if_pos hA, if_pos hA2]
  · have hA2 : ¬(j = npoints - 2 ∧ i = npoints - 2) := fun hc => hA ⟨hc.2, hc.1⟩
    rw [if_neg hA, if_neg hA2]
    by_cases hij : i = j
    · subst hij
      rfl
    · have hij2 : ¬(j = i) := fun hc => hij hc.symm
      rw [if_neg hij, if_neg hij2]
      ring

/-- Length of the discretization matrix (helper). -/
theorem bdm_length (qi qd : ℕ) :
    (build_discretization_matrix qi qd).length = qi + qd := by
  rw [build_discretization_matrix, List.length_map, j_range, List.length_map,
    List.length_range]

/-- Rows of the discretization matrix (helper). -/
theorem bdm_row (qi qd k : ℕ) (hk : k < qi + qd) :
    (build_discretization_matrix qi qd).getD k []
      = (j_range qi qd).map fun j2 => (2 : ℚ) ^ (-(((k : ℤ) - qi + 1) + j2)) := by
  rw [List.getD_eq_getElem _ _ (by rw [bdm_length]; omega)]
  simp only [build_discretization_matrix, List.getElem_map, j_range, List.getElem_range]

/-- Entry formula for the discretization matrix (helper). -/
theorem bdm_entry (qi qd a b : ℕ) (ha : a < qi + qd) (hb : b < qi + qd) :
    ((build_discretization_matrix qi qd).getD a []).getD b 0
      = (2 : ℚ) ^ (-(((a : ℤ) - qi + 1) + ((b : ℤ) - qi + 1))) := by
  rw [bdm_row _ _ _ ha,
    List.getD_eq_getElem _ _ (by
      rw [List.length_map, j_range, List.length_map, List.length_range]
      omega)]
  simp only [List.getElem_map, j_range, List.getElem_range]

/-- The discretization matrix is symmetric (helper). -/
theorem bdm_symm (qi qd a b : ℕ) (ha : a < qi + qd) (hb : b < qi + qd) :
    ((build_discretization_matrix qi qd).getD a []).getD b 0
      = ((build_discretization_matrix qi qd).getD b []).getD a 0 := by
  rw [bdm_entry _ _ _ _ ha hb, bdm_entry _ _ _ _ hb ha]
  congr 1
  ring

/-- Every row of the discretization matrix has length
`qbits_integer + qbits_decimal` (helper). -/
theorem bdm_row_length (qi qd : ℕ) (row : List ℚ)
    (h : row ∈ build_discretization_matrix qi qd) : row.length = qi + qd := by
  rw [build_discretization_matrix] at h
  obtain ⟨j1, hj1, rfl⟩ := List.mem_map.mp h
  rw [List.length_map, j_range, List.length_map, List.length_range]

/-- Every row of the continuous quadratic minimization matrix has length
`npoints - 1` (helper). -/
theorem bqmm_row_length (npoints : ℕ) (dx : ℚ) (row : List ℚ)
    (h : row ∈ build_quadratic_minimization_matrix npoints dx) :
    row.length = npoints - 1 := by
  rw [build_quadratic_minimization_matrix] at h
  obtain ⟨i, hi, rfl⟩ := List.mem_map.mp h
  rw [List.length_map, List.length_range]

/-- Shape and entry decomposition of the assembled QUBO matrix (helper):
`Q` is square of size `(len f - 1) * (qi + qd)`, and entry `(I, J)` is the
discretization-matrix entry `(I % m, J % m)` times the continuous-matrix
entry `(I / m, J / m)` plus a purely diagonal term coming from the expanded
linear vector. -/
theorem build_qubo_matrix_spec (f : List ℚ) (dx y1 : ℚ) (qi qd : ℕ)
    (signed : Bool) (hm : 1 ≤ qi + qd) :
    (build_qubo_matrix f dx y1 (build_discretization_matrix qi qd)
        (build_discretization_vector qi qd) signed).length
      = (f.length - 1) * (qi + qd) ∧
    (∀ row ∈ build_qubo_matrix f dx y1 (build_discretization_matrix qi qd)
        (build_discretization_vector qi qd) signed,
      row.length = (f.length - 1) * (qi + qd)) ∧
    ∃ dbin : ℕ → ℚ,
      ∀ I J, I < (f.length - 1) * (qi + qd) → J < (f.length - 1) * (qi + qd) →
        ((build_qubo_matrix f dx y1 (build_discretization_matrix qi qd)
            (build_discretization_vector qi qd) signed).getD I []).getD J 0
          = ((build_discretization_matrix qi qd).getD (I % (qi + qd)) []).getD
                (J % (qi + qd)) 0
              * ((build_quadratic_minimization_matrix f.length dx).getD
                  (I / (qi + qd)) []).getD (J / (qi + qd)) 0
            + (if I = J then dbin I else 0) := by
  have hm0 : 0 < qi + qd := hm
  simp only [build_qubo_matrix]
  set m := qi + qd with hmdef
  set p := f.length - 1 with hpdef
  set Hc := build_quadratic_minimization_matrix f.length dx with hHc
  set Hd := build_discretization_matrix qi qd with hHd
  set dd := build_discretization_vector qi qd with hdd
  set dc := (if signed then
      (build_quadratic_minimization_vector f dx y1).set 0
        ((build_quadratic_minimization_vector f dx y1).getD 0 0
          - 2 * dd.getD 0 0 / dx ^ 2)
    else build_quadratic_minimization_vector f dx y1) with hdc
  set Hb := Hc.flatMap (fun crow =>
    Hd.map fun hrow => crow.flatMap fun v => hrow.map fun h => h * v) with hHb
  set db := dc.flatMap (fun v => dd.map fun dEl => dEl * v) with hdb
  have hbloc : ∀ crow ∈ Hc,
      (Hd.map fun hrow => crow.flatMap fun v => hrow.map fun h => h * v).length
        = m := by
    intro crow _
    rw [List.length_map, hHd, bdm_length]
  have hHblen : Hb.length = p * m := by
    rw [hHb, flatMap_length_const m _ _ hbloc, hHc, bqmm_length]
  have hHbrow : ∀ I, I < p * m →
      Hb.getD I [] = (Hc.getD (I / m) []).flatMap
        (fun v => (Hd.getD (I % m) []).map fun h => h * v) := by
    intro I hI
    have hIdm : I / m * m + I % m = I := by
      rw [Nat.mul_comm]
      exact Nat.div_add_mod I m
    have hdivI : I / m < Hc.length := by
      rw [hHc, bqmm_length]
      exact (Nat.div_lt_iff_lt_mul hm0).mpr hI
    conv_lhs => rw [← hIdm]
    rw [hHb, flatMap_getD_const m [] [] _ _ hbloc (I / m) (I % m) hdivI
      (Nat.mod_lt _ hm0)]
    have hmodI : I % m < Hd.length := by
      rw [hHd, bdm_length]
      exact Nat.mod_lt _ hm0
    rw [List.getD_eq_getElem _ _ (by rw [List.length_map]; exact hmodI),
      List.getElem_map, ← List.getD_eq_getElem Hd [] hmodI]
  have hHbrowlen : ∀ I, I < p * m → (Hb.getD I []).length = p * m := by
    intro I hI
    rw [hHbrow I hI]
    have hcm : Hc.getD (I / m) [] ∈ Hc := by
      have hdivI : I / m < Hc.length := by
        rw [hHc, bqmm_length]
        exact (Nat.div_lt_iff_lt_mul hm0).mpr hI
      rw [List.getD_eq_getElem _ _ hdivI]
      exact List.getElem_mem _
    have hdm : Hd.getD (I % m) [] ∈ Hd := by
      have hmodI : I % m < Hd.length := by
        rw [hHd, bdm_length]
        exact Nat.mod_lt _ hm0
      rw [List.getD_eq_getElem _ _ hmodI]
      exact List.getElem_mem _
    rw [flatMap_length_const m _ _
      (fun v _ => by rw [List.length_map]; exact bdm_row_length qi qd _ hdm),
      bqmm_row_length f.length dx _ hcm]
  have hQlen : (List.zipWith
      (fun row i => List.zipWith (fun v j => v + if i = j then db.getD i 0 else 0)
        row (List.range row.length)) Hb (List.range Hb.length)).length = p * m := by
    rw [List.length_zipWith, List.length_range, hHblen, min_self]
  refine ⟨hQlen, ?_, fun I => db.getD I 0, ?_⟩
  · intro row hrow
    obtain ⟨I, hI, rfl⟩ := List.mem_iff_getElem.mp hrow
    rw [List.getElem_zipWith, List.length_zipWith, List.length_range, min_self]
    have hIlt : I < p * m := by
      rw [← hQlen]
      exact hI
    have hIHb : I < Hb.length := by omega
    rw [← List.getD_eq_getElem Hb [] hIHb]
    exact hHbrowlen I hIlt
  · intro I J hI hJ
    have hIHb : I < Hb.length := by omega
    have hrowI : (List.zipWith
        (fun row i => List.zipWith (fun v j => v + if i = j then db.getD i 0 else 0)
          row (List.range row.length)) Hb (List.range Hb.length)).getD I []
        = List.zipWith (fun v j => v + if I = j then db.getD I 0 else 0)
            (Hb.getD I []) (List.range ((Hb.getD I []).length)) := by
      rw [List.getD_eq_getElem _ _ (by rw [hQlen]; omega), List.getElem_zipWith,
        List.getElem_range, ← List.getD_eq_getElem Hb [] hIHb]
    rw [hrowI]
    have hJrow : J < (Hb.getD I []).length := by
      rw [hHbrowlen I hI]
      omega
    rw [List.getD_eq_getElem _ _ (by
        rw [List.length_zipWith, List.length_range, min_self]
        exact hJrow),
      List.getElem_zipWith, List.getElem_range,
      ← List.getD_eq_getElem (Hb.getD I []) 0 hJrow]
    have hJdm : J / m * m + J % m = J := by
      rw [Nat.mul_comm]
      exact Nat.div_add_mod J m
    have hdivJ : J / m < (Hc.getD (I / m) []).length := by
      have hcm : Hc.getD (I / m) [] ∈ Hc := by
        have hdivI : I / m < Hc.length := by
          rw [hHc, bqmm_length]
          exact (Nat.div_lt_iff_lt_mul hm0).mpr hI
        rw [List.getD_eq_getElem _ _ hdivI]
        exact List.getElem_mem _
      rw [bqmm_row_length f.length dx _ hcm]
      exact (Nat.div_lt_iff_lt_mul hm0).mpr hJ
    have hdm : Hd.getD (I % m) [] ∈ Hd := by
      have hmodI : I % m < Hd.length := by
        rw [hHd, bdm_length]
        exact Nat.mod_lt _ hm0
      rw [List.getD_eq_getElem _ _ hmodI]
      exact List.getElem_mem _
    have hentry : (Hb.getD I []).getD J 0
        = ((Hd.getD (I % m) []).getD (J % m) 0)
            * ((Hc.getD (I / m) []).getD (J / m) 0) := by
      rw [hHbrow I hI]
      conv_lhs => rw [← hJdm]
      rw [flatMap_getD_const m 0 0 _ _
        (fun v _ => by rw [List.length_map]; exact bdm_row_length qi qd _ hdm)
        (J / m) (J % m) hdivJ (Nat.mod_lt _ hm0)]
      have hmodJ : J % m < (Hd.getD (I % m) []).length := by
        rw [bdm_row_length qi qd _ hdm]
        exact Nat.mod_lt _ hm0
      rw [List.getD_eq_getElem _ _ (by rw [List.length_map]; exact hmodJ),
        List.getElem_map, ← List.getD_eq_getElem (Hd.getD (I % m) []) 0 hmodJ]
    rw [hentry]

/-- C4: for every block `f_block` of length ≥ 2, grid step `dx > 0`,
boundary value `y1`, and discretization element pair built from
`qbits_integer + qbits_decimal ≥ 1` qubits, `build_qubo_matrix` returns a
symmetric square matrix of size
`(len f_block - 1) * (qbits_integer + qbits_decimal)`. -/
theorem build_qubo_matrix_symmetric (f : List ℚ) (dx y1 : ℚ) (qi qd : ℕ)
    (signed : Bool) (hf : 2 ≤ f.length) (hdx : 0 < dx) (hq : 1 ≤ qi + qd) :
    (build_qubo_matrix f dx y1 (build_discretization_matrix qi qd)
        (build_discretization_vector qi qd) signed).length
      = (f.length - 1) * (qi + qd) ∧
    (∀ row ∈ build_qubo_matrix f dx y1 (build_discretization_matrix qi qd)
        (build_discretization_vector qi qd) signed,
      row.length = (f.length - 1) * (qi + qd)) ∧
    ∀ I J, I < (f.length - 1) * (qi + qd) → J < (f.length - 1) * (qi + qd) →
      ((build_qubo_matrix f dx y1 (build_discretization_matrix qi qd)
          (build_discretization_vector qi qd) signed).getD I []).getD J 0
        = ((build_qubo_matrix f dx y1 (build_discretization_matrix qi qd)
            (build_discretization_vector qi qd) signed).getD J []).getD I 0 := by
  obtain ⟨hlen, hrows, dbin, hentry⟩ := build_qubo_matrix_spec f dx y1 qi qd signed hq
  have hm0 : 0 < qi + qd := hq
  refine ⟨hlen, hrows, fun I J hI hJ => ?_⟩
  rw [hentry I J hI hJ, hentry J I hJ hI]
  rw [bdm_symm qi qd (I % (qi + qd)) (J % (qi + qd)) (Nat.mod_lt _ hm0)
    (Nat.mod_lt _ hm0)]
  rw [bqmm_symm f.length dx (I / (qi + qd)) (J / (qi + qd))
    ((Nat.div_lt_iff_lt_mul hm0).mpr hI) ((Nat.div_lt_iff_lt_mul hm0).mpr hJ)]
  by_cases hIJ : I = J
  · subst hIJ
    rfl
  · rw [if_neg hIJ, if_neg (fun hc => hIJ hc.symm)]

/-- Witness for the C4 theorem at `f_block = [0, 1]`, `dx = 1`, `y1 = 0`,
one integer and one decimal qubit, signed. -/
theorem build_qubo_matrix_symmetric_witness :
    2 ≤ ([0, 1] : List ℚ).length ∧ (0 : ℚ) < 1 ∧ 1 ≤ 1 + 1 ∧
      ((build_qubo_matrix [0, 1] 1 0 (build_discretization_matrix 1 1)
          (build_discretization_vector 1 1) true).length
        = (([0, 1] : List ℚ).length - 1) * (1 + 1) ∧
      (∀ row ∈ build_qubo_matrix [0, 1] 1 0 (build_discretization_matrix 1 1)
          (build_discretization_vector 1 1) true,
        row.length = (([0, 1] : List ℚ).length - 1) * (1 + 1)) ∧
      ∀ I J, I < (([0, 1] : List ℚ).length - 1) * (1 + 1) →
          J < (([0, 1] : List ℚ).length - 1) * (1 + 1) →
        ((build_qubo_matrix [0, 1] 1 0 (build_discretization_matrix 1 1)
            (build_discretization_vector 1 1) true).getD I []).getD J 0
          = ((build_qubo_matrix [0, 1] 1 0 (build_discretization_matrix 1 1)
              (build_discretization_vector 1 1) true).getD J []).getD I 0) :=
  ⟨by decide, by norm_num, by decide,
    build_qubo_matrix_symmetric [0, 1] 1 0 1 1 true (by decide) (by norm_num)
      (by decide)⟩

/-- A fold whose every step adds a state-independent increment to the matrix
component ends at the initial matrix plus the sum of increments (helper). -/
theorem foldl_H_additive {α : Type}
    (step : ((ℤ → ℤ → ℚ) × (ℤ → ℚ)) → α → ((ℤ → ℤ → ℚ) × (ℤ → ℚ)))
    (dlt : α → ℤ → ℤ → ℚ) :
    ∀ (l : List α),
      (∀ st x, x ∈ l → ∀ i j, (step st x).1 i j = st.1 i j + dlt x i j) →
      ∀ st (i j : ℤ),
        (l.foldl step st).1 i j = st.1 i j + (l.map fun x => dlt x i j).sum := by
  intro l
  induction l with
  | nil =>
    intro _ st i j
    simp
  | cons x t ih =>
    intro h st i j
    rw [List.foldl_cons, List.map_cons, List.sum_cons,
      ih (fun st2 y hy => h st2 y (List.mem_cons_of_mem _ hy)) (step st x) i j,
      h st x (List.mem_cons_self _ _) i j]
    ring

/-- Monadic version of `foldl_H_additive`: a successful `foldlM` over
`Option` whose every successful step adds a state-independent increment to
the matrix component ends at the initial matrix plus the sum of increments
(helper). -/
theorem foldlM_H_additive {α : Type}
    (step : ((ℤ → ℤ → ℚ) × (ℤ → ℚ)) → α → Option ((ℤ → ℤ → ℚ) × (ℤ → ℚ)))
    (dlt : α → ℤ → ℤ → ℚ) :
    ∀ (l : List α),
      (∀ st x, x ∈ l → ∀ st2, step st x = some st2 →
        ∀ i j, st2.1 i j = st.1 i j + dlt x i j) →
      ∀ st stF, List.foldlM step st l = some stF →
        ∀ (i j : ℤ), stF.1 i j = st.1 i j + (l.map fun x => dlt x i j).sum := by
  intro l
  induction l with
  | nil =>
    intro _ st stF hF i j
    rw [List.foldlM_nil] at hF
    obtain rfl := Option.some_inj.mp hF
    simp
  | cons x t ih =>
    intro h st stF hF i j
    rw [List.foldlM_cons] at hF
    obtain ⟨st1, hx, ht⟩ := Option.bind_eq_some.mp hF
    rw [List.map_cons, List.sum_cons,
      ih (fun st2 y hy => h st2 y (List.mem_cons_of_mem _ hy)) st1 stF ht i j,
      h st x (List.mem_cons_self _ _) st1 hx i j]
    ring

/-- Sum of a constantly-zero map (helper). -/
theorem list_sum_map_zero {α : Type} (l : List α) :
    (l.map fun _ => (0 : ℚ)).sum = 0 := by
  induction l with
  | nil => rfl
  | cons x t ih => simp [ih]

/-- Sums distribute over pointwise addition (helper). -/
theorem list_sum_map_add {α : Type} (l : List α) (g1 g2 : α → ℚ) :
    (l.map fun x => g1 x + g2 x).sum = (l.map g1).sum + (l.map g2).sum := by
  induction l with
  | nil => simp
  | cons x t ih =>
    simp only [List.map_cons, List.sum_cons, ih]
    ring

/-- Double list sums commute (helper). -/
theorem list_sum_comm {α β : Type} (l1 : List α) (l2 : List β) (g : α → β → ℚ) :
    (l1.map fun x => (l2.map fun y => g x y).sum).sum
      = (l2.map fun y => (l1.map fun x => g x y).sum).sum := by
  induction l1 with
  | nil => simp [list_sum_map_zero]
  | cons x t ih =>
    simp only [List.map_cons, List.sum_cons, ih]
    exact (list_sum_map_add l2 _ _).symm

/-- An `if` over a conjunction of independent conditions splits as a product
(helper). -/
theorem ite_and_mul_split (P Q : Prop) [Decidable P] [Decidable Q] (x y : ℚ) :
    (if P ∧ Q then x * y else 0) = (if P then x else 0) * (if Q then y else 0) := by
  by_cases hP : P <;> by_cases hQ : Q <;> simp [hP, hQ]

/-- An `if` guarding a whole sum can be pushed into the summands (helper). -/
theorem ite_zero_sum {α : Type} (c : Prop) [Decidable c] (l : List α) (g : α → ℚ) :
    (if c then 0 else (l.map g).sum) = (l.map fun x => if c then 0 else g x).sum := by
  by_cases hc : c
  · simp only [if_pos hc]
    exact (list_sum_map_zero l).symm
  · simp only [if_neg hc]

/-- The pure double scheme loop of `add_quadratic_terms` adds exactly the
outer product of the two scheme profiles, scaled by the function factor, to
the matrix component; the vector updates of the mixed branches never touch
it (helper). -/
theorem quad_double_fold_H (p : ℕ) (fu : ℤ) (ff : ℚ) (c1 c2 kp : List ℚ)
    (n1 n2 : ℕ) (st : (ℤ → ℤ → ℚ) × (ℤ → ℚ)) (i j : ℤ) :
    ((List.range n1).foldl
      (fun stA (s1 : ℕ) =>
        (List.range n2).foldl
          (fun stB (s2 : ℕ) =>
            if (p : ℤ) + (s1 : ℤ) - fu < 0 ∧ (p : ℤ) + (s2 : ℤ) - fu < 0 then stB
            else
              if 0 ≤ (p : ℤ) + (s1 : ℤ) - fu ∧ 0 ≤ (p : ℤ) + (s2 : ℤ) - fu then
                (addAt2 stB.1 ((p : ℤ) + (s1 : ℤ) - fu) ((p : ℤ) + (s2 : ℤ) - fu)
                  (ff * c1.getD s1 0 * c2.getD s2 0), stB.2)
              else
                (stB.1, addAt1 stB.2
                  (max ((p : ℤ) + (s1 : ℤ) - fu) ((p : ℤ) + (s2 : ℤ) - fu))
                  (ff * c1.getD s1 0 * c2.getD s2 0
                    * kp.getD (min ((p : ℤ) + (s1 : ℤ) - fu)
                        ((p : ℤ) + (s2 : ℤ) - fu) + fu).toNat 0)))
          stA)
      st).1 i j
      = st.1 i j + ff * scheme_profile p fu c1 n1 i * scheme_profile p fu c2 n2 j := by
  refine (foldl_H_additive _
    (fun (s1 : ℕ) (i2 j2 : ℤ) =>
      (if i2 = (p : ℤ) + (s1 : ℤ) - fu ∧ 0 ≤ i2 then ff * c1.getD s1 0 else 0)
        * scheme_profile p fu c2 n2 j2)
    (List.range n1) ?_ st i j).trans ?_
  · intro stA s1 hs1 i2 j2
    refine (foldl_H_additive _
      (fun (s2 : ℕ) (i3 j3 : ℤ) =>
        if (i3 = (p : ℤ) + (s1 : ℤ) - fu ∧ 0 ≤ i3)
            ∧ (j3 = (p : ℤ) + (s2 : ℤ) - fu ∧ 0 ≤ j3) then
          ff * c1.getD s1 0 * c2.getD s2 0
        else 0)
      (List.range n2) ?_ stA i2 j2).trans ?_
    · intro stB s2 hs2 i4 j4
      beta_reduce
      by_cases hneg : (p : ℤ) + (s1 : ℤ) - fu < 0 ∧ (p : ℤ) + (s2 : ℤ) - fu < 0
      · rw [if_pos hneg, if_neg]
        · ring
        · intro hc
          obtain ⟨⟨hi, hi0⟩, hj, hj0⟩ := hc
          omega
      · rw [if_neg hneg]
        by_cases hpos : 0 ≤ (p : ℤ) + (s1 : ℤ) - fu ∧ 0 ≤ (p : ℤ) + (s2 : ℤ) - fu
        · rw [if_pos hpos]
          change addAt2 stB.1 _ _ _ i4 j4 = _
          unfold addAt2
          by_cases hij : i4 = (p : ℤ) + (s1 : ℤ) - fu ∧ j4 = (p : ℤ) + (s2 : ℤ) - fu
          · rw [if_pos hij, if_pos ⟨⟨hij.1, by omega⟩, ⟨hij.2, by omega⟩⟩]
          · rw [if_neg hij, if_neg (fun hc => hij ⟨hc.1.1, hc.2.1⟩)]
            ring
        · rw [if_neg hpos]
          change stB.1 i4 j4 = _
          rw [if_neg]
          · ring
          · intro hc
            obtain ⟨⟨hi, hi0⟩, hj, hj0⟩ := hc
            omega
    · congr 1
      rw [List.map_congr_left (fun (s2 : ℕ) _ => ite_and_mul_split _ _ _ _),
        List.sum_map_mul_left]
      rfl
  · congr 1
    rw [List.sum_map_mul_right,
      List.map_congr_left (fun (s1 : ℕ) _ => (mul_ite_zero _ _ _).symm),
      List.sum_map_mul_left]
    rfl

/-- A successful `add_quadratic_terms_intended` call adds exactly the
summed ordered pair contributions of its grid point to the matrix component
(helper). -/
theorem add_quadratic_terms_intended_H (fd : ℤ → ℤ → List ℚ)
    (funcs : ℕ → ℕ → ℚ)
    (nfuncs point_ind : ℕ) (lu : ℤ) (dx : ℚ) (kp : List ℚ) (mca : ℤ)
    (H0 : ℤ → ℤ → ℚ) (d0 : ℤ → ℚ) (stF : (ℤ → ℤ → ℚ) × (ℤ → ℚ))
    (h : add_quadratic_terms_intended fd H0 d0 point_ind lu funcs nfuncs dx kp mca
      = some stF) (i j : ℤ) :
    stF.1 i j
      = H0 i j + point_term fd funcs nfuncs point_ind lu kp.length dx mca i j := by
  simp only [add_quadratic_terms_intended] at h
  refine (foldlM_H_additive _
    (fun (k1 : ℤ) (i2 j2 : ℤ) =>
      if (get_deriv_range k1 point_ind lu mca).2.1 < 1 then 0
      else (((List.range' 1 (nfuncs - 1)).map fun (k : ℕ) => (k : ℤ)).map fun k2 =>
        quad_pair_term fd funcs point_ind lu kp.length dx mca k1 k2 i2 j2).sum)
    _ ?_ (H0, d0) stF h i j).trans ?_
  · intro st1 k1 hk1 st2 hstep i2 j2
    simp only [] at hstep ⊢
    by_cases hacc : (get_deriv_range k1 point_ind lu mca).2.1 < 1
    · rw [if_pos hacc] at hstep
      obtain rfl := Option.some_inj.mp hstep
      rw [if_pos hacc, add_zero]
    · rw [if_neg hacc] at hstep
      obtain ⟨c1, hc1, hk2fold⟩ := Option.bind_eq_some.mp hstep
      rw [if_neg hacc]
      refine (foldlM_H_additive _
        (fun (k2 : ℤ) (i3 j3 : ℤ) =>
          quad_pair_term fd funcs point_ind lu kp.length dx mca k1 k2 i3 j3)
        _ ?_ st1 st2 hk2fold i2 j2).trans ?_
      · intro st3 k2 hk2 st4 hstep2 i4 j4
        simp only [] at hstep2 ⊢
        by_cases hguard : ((get_deriv_range k1 point_ind lu mca).2.2.2
              < (kp.length : ℤ)
            ∧ (get_deriv_range k2 point_ind lu mca).2.2.2 < (kp.length : ℤ))
            ∨ (get_deriv_range k2 point_ind lu mca).2.1 < 1
        · rw [if_pos hguard] at hstep2
          obtain rfl := Option.some_inj.mp hstep2
          simp only [quad_pair_term]
          rw [if_pos hguard, add_zero]
        · rw [if_neg hguard] at hstep2
          obtain ⟨c2, hc2, hdf⟩ := Option.bind_eq_some.mp hstep2
          obtain rfl := Option.some_inj.mp hdf
          simp only [quad_pair_term]
          rw [if_neg hguard]
          have e1 : coeffs_of fd k1 point_ind lu mca = c1 := by
            simp only [coeffs_of, hc1, Option.getD_some]
          have e2 : coeffs_of fd k2 point_ind lu mca = c2 := by
            simp only [coeffs_of, hc2, Option.getD_some]
          rw [e1, e2]
          exact quad_double_fold_H point_ind (kp.length : ℤ) _ c1 c2 kp _ _ st3 i4 j4
      · rfl
  · congr 1
    simp only [point_term, quad_term]
    congr 1
    apply List.map_congr_left
    intro k1 _
    beta_reduce
    exact ite_zero_sum _ _ _

/-- The matrix component returned by a successful
`build_quadratic_minimization_matrices_general_intended` call is the sum of
the per-grid-point contributions (helper). -/
theorem build_general_intended_H (fd : ℤ → ℤ → List ℚ) (funcs : ℕ → ℕ → ℚ)
    (nfuncs npoints : ℕ) (dx : ℚ) (kp : List ℚ) (mca : ℤ) (pps : ℕ)
    (stF : (ℤ → ℤ → ℚ) × (ℤ → ℚ))
    (h : build_quadratic_minimization_matrices_general_intended fd funcs nfuncs
      npoints dx kp mca pps = some stF) (i j : ℤ) :
    stF.1 i j
      = ((List.range
          (((kp.length : ℤ) + min (pps : ℤ) ((npoints : ℤ) - (kp.length : ℤ)) - 1
            + 1).toNat)).map fun point_ind =>
          point_term fd funcs nfuncs point_ind
            ((kp.length : ℤ) + min (pps : ℤ) ((npoints : ℤ) - (kp.length : ℤ)) - 1)
            kp.length dx mca i j).sum := by
  simp only [build_quadratic_minimization_matrices_general_intended] at h
  refine (foldlM_H_additive _
    (fun (point_ind : ℕ) (i2 j2 : ℤ) =>
      point_term fd funcs nfuncs point_ind
        ((kp.length : ℤ) + min (pps : ℤ) ((npoints : ℤ) - (kp.length : ℤ)) - 1)
        kp.length dx mca i2 j2)
    _ ?_ (fun _ _ => 0, fun _ => 0) stF h i j).trans ?_
  · intro st p hp st2 hstep i2 j2
    simp only [] at hstep ⊢
    obtain ⟨d1, hd1, haqt⟩ := Option.bind_eq_some.mp hstep
    exact add_quadratic_terms_intended_H fd funcs nfuncs p _ dx kp mca st.1 d1 st2
      haqt i2 j2
  · simp

/-- The combined per-pair contribution is transpose-symmetric under swapping
the ordered pair of terms (helper). -/
theorem quad_term_symm (fd : ℤ → ℤ → List ℚ) (funcs : ℕ → ℕ → ℚ)
    (point_ind : ℕ) (lu fu : ℤ) (dx : ℚ) (mca : ℤ) (k1 k2 i j : ℤ) :
    quad_term fd funcs point_ind lu fu dx mca k1 k2 i j
      = quad_term fd funcs point_ind lu fu dx mca k2 k1 j i := by
  simp only [quad_term, quad_pair_term]
  by_cases h1 : (get_deriv_range k1 point_ind lu mca).2.1 < 1
  · rw [if_pos h1]
    by_cases h2 : (get_deriv_range k2 point_ind lu mca).2.1 < 1
    · rw [if_pos h2]
    · rw [if_neg h2, if_pos (Or.inr h1)]
  · rw [if_neg h1]
    by_cases h2 : (get_deriv_range k2 point_ind lu mca).2.1 < 1
    · rw [if_pos h2, if_pos (Or.inr h2)]
    · rw [if_neg h2]
      by_cases h3 : (get_deriv_range k1 point_ind lu mca).2.2.2 < fu
          ∧ (get_deriv_range k2 point_ind lu mca).2.2.2 < fu
      · rw [if_pos (Or.inl h3), if_pos (Or.inl ⟨h3.2, h3.1⟩)]
      · have hg1 : ¬(((get_deriv_range k1 point_ind lu mca).2.2.2 < fu
            ∧ (get_deriv_range k2 point_ind lu mca).2.2.2 < fu)
            ∨ (get_deriv_range k2 point_ind lu mca).2.1 < 1) :=
          fun hc => hc.elim h3 h2
        have hg2 : ¬(((get_deriv_range k2 point_ind lu mca).2.2.2 < fu
            ∧ (get_deriv_range k1 point_ind lu mca).2.2.2 < fu)
            ∨ (get_deriv_range k1 point_ind lu mca).2.1 < 1) :=
          fun hc => hc.elim (fun hx => h3 ⟨hx.2, hx.1⟩) h1
        rw [if_neg hg1, if_neg hg2,
          add_comm ((get_deriv_range k2 point_ind lu mca).1)
            ((get_deriv_range k1 point_ind lu mca).1)]
        ring

/-- The per-grid-point contribution to `H` is a symmetric matrix
(helper). -/
theorem point_term_symm (fd : ℤ → ℤ → List ℚ) (funcs : ℕ → ℕ → ℚ)
    (nfuncs point_ind : ℕ) (lu fu : ℤ) (dx : ℚ) (mca : ℤ) (i j : ℤ) :
    point_term fd funcs nfuncs point_ind lu fu dx mca i j
      = point_term fd funcs nfuncs point_ind lu fu dx mca j i := by
  have step1 : point_term fd funcs nfuncs point_ind lu fu dx mca j i
      = (((List.range' 1 (nfuncs - 1)).map fun (k : ℕ) => (k : ℤ)).map fun k1 =>
          (((List.range' 1 (nfuncs - 1)).map fun (k : ℕ) => (k : ℤ)).map fun k2 =>
            quad_term fd funcs point_ind lu fu dx mca k2 k1 i j).sum).sum := by
    simp only [point_term]
    exact congrArg List.sum (List.map_congr_left (fun k1 _ =>
      congrArg List.sum (List.map_congr_left (fun k2 _ =>
        quad_term_symm fd funcs point_ind lu fu dx mca k1 k2 j i))))
  rw [step1]
  simp only [point_term]
  exact list_sum_comm _ _ _

/-- The intended general assembler (the `NameError` typo repaired) produces
a symmetric `H` for every equation specification, grid step, known points
array, accuracy cap and block size, and any even-accuracy collaborator
`fd`: evidence that the claim describes the intent of qde.py lines 116-180
(helper; see `build_general_none` for what the code as written does). -/
theorem build_general_intended_symmetric (fd : ℤ → ℤ → List ℚ)
    (funcs : ℕ → ℕ → ℚ)
    (nfuncs npoints : ℕ) (dx : ℚ) (known_points : List ℚ) (mca : ℤ) (pps : ℕ)
    (hdx : 0 < dx) (hmca : 1 ≤ mca) (stF : (ℤ → ℤ → ℚ) × (ℤ → ℚ))
    (h : build_quadratic_minimization_matrices_general_intended fd funcs nfuncs
      npoints dx known_points mca pps = some stF) (i j : ℤ) :
    stF.1 i j = stF.1 j i := by
  rw [build_general_intended_H fd funcs nfuncs npoints dx known_points mca pps stF
      h i j,
    build_general_intended_H fd funcs nfuncs npoints dx known_points mca pps stF
      h j i]
  congr 1
  apply List.map_congr_left
  intro p _
  exact point_term_symm fd funcs nfuncs p _ _ dx mca i j

/-- Nonvacuity of `build_general_intended_symmetric`: a first-order
equation on a three-point grid with one known point and two unknowns; the
intended assembler returns, and the off-diagonal entries of its `H` agree
(helper). -/
theorem build_general_intended_symmetric_nonvacuous :
    (0 : ℚ) < 1 ∧ (1 : ℤ) ≤ 1 ∧
      ((build_quadratic_minimization_matrices_general_intended (fun _ _ => [])
          (fun r _ => if r = 0 then 1 else 2) 2 3 1 [1] 1 2).get rfl).1 0 1
        = ((build_quadratic_minimization_matrices_general_intended (fun _ _ => [])
            (fun r _ => if r = 0 then 1 else 2) 2 3 1 [1] 1 2).get rfl).1 1 0 :=
  ⟨by norm_num, by decide,
    build_general_intended_symmetric (fun _ _ => [])
      (fun r _ => if r = 0 then 1 else 2)
      2 3 1 [1] 1 2 (by norm_num) (by decide)
      ((build_quadratic_minimization_matrices_general_intended (fun _ _ => [])
        (fun r _ => if r = 0 then 1 else 2) 2 3 1 [1] 1 2).get rfl)
      (@Option.some_get _ (build_quadratic_minimization_matrices_general_intended
        (fun _ _ => []) (fun r _ => if r = 0 then 1 else 2) 2 3 1 [1] 1 2)
        rfl).symm 0 1⟩

/-- A `foldlM` over `Option` whose first step fails fails (helper). -/
theorem foldlM_cons_none {α σ : Type} (step : σ → α → Option σ) (st : σ)
    (x : α) (l : List α) (h : step st x = none) :
    List.foldlM step st (x :: l) = none := by
  rw [List.foldlM_cons, h]
  rfl

/-- `add_quadratic_terms` as written always fails once `funcs` has at least
two rows: term 1 (the shift term) has `accuracy_order = 1`, so the inner
term loop is entered and its first guard evaluation (qde.py line 137, the
undefined name `first_unknown_ind_global`) raises `NameError` (helper). -/
theorem add_quadratic_terms_none (fd : ℤ → ℤ → List ℚ) (funcs : ℕ → ℕ → ℚ)
    (nfuncs point_ind : ℕ) (lu : ℤ) (dx : ℚ) (kp : List ℚ) (mca : ℤ)
    (H0 : ℤ → ℤ → ℚ) (d0 : ℤ → ℚ) (h2 : 2 ≤ nfuncs) :
    add_quadratic_terms fd H0 d0 point_ind lu funcs nfuncs dx kp mca = none := by
  obtain ⟨m, hm⟩ : ∃ m, nfuncs - 1 = m + 1 := ⟨nfuncs - 2, by omega⟩
  simp [add_quadratic_terms, hm, List.range'_succ, get_deriv_range,
    get_finite_difference_coefficients, List.foldlM_cons]

/-- C1, the code as written: for every equation specification with at least
two function rows (a shift row and at least one derivative term) and a
nonempty point loop, `build_quadratic_minimization_matrices_general`
returns no matrix at all — qde.py:137 reads the undefined name
`first_unknown_ind_global` (line 129 defines `first_unknown_index_global`),
so the assembler raises `NameError` at the first inner-loop guard of the
first grid point instead of producing `H`.  The claimed symmetry is a
property of the evidently intended computation, proved as
`build_general_intended_symmetric` for the one-character repair. -/
theorem build_general_none (fd : ℤ → ℤ → List ℚ) (funcs : ℕ → ℕ → ℚ)
    (nfuncs npoints : ℕ) (dx : ℚ) (kp : List ℚ) (mca : ℤ) (pps : ℕ)
    (h2 : 2 ≤ nfuncs)
    (hpts : 0 < ((kp.length : ℤ)
      + min (pps : ℤ) ((npoints : ℤ) - (kp.length : ℤ)) - 1 + 1).toNat) :
    build_quadratic_minimization_matrices_general fd funcs nfuncs npoints dx kp
      mca pps = none := by
  obtain ⟨m, hm⟩ : ∃ m, ((kp.length : ℤ)
      + min (pps : ℤ) ((npoints : ℤ) - (kp.length : ℤ)) - 1 + 1).toNat = m + 1 :=
    ⟨((kp.length : ℤ)
      + min (pps : ℤ) ((npoints : ℤ) - (kp.length : ℤ)) - 1 + 1).toNat - 1,
      by omega⟩
  have hstep : ∀ st : (ℤ → ℤ → ℚ) × (ℤ → ℚ),
      ((add_linear_terms fd st.2 0
          ((kp.length : ℤ) + min (pps : ℤ) ((npoints : ℤ) - (kp.length : ℤ)) - 1)
          funcs nfuncs dx kp mca).bind fun d1 =>
        add_quadratic_terms fd st.1 d1 0
          ((kp.length : ℤ) + min (pps : ℤ) ((npoints : ℤ) - (kp.length : ℤ)) - 1)
          funcs nfuncs dx kp mca) = none := by
    intro st
    cases halt : add_linear_terms fd st.2 0
        ((kp.length : ℤ) + min (pps : ℤ) ((npoints : ℤ) - (kp.length : ℤ)) - 1)
        funcs nfuncs dx kp mca with
    | none => rfl
    | some d1 =>
      show add_quadratic_terms fd st.1 d1 0 _ funcs nfuncs dx kp mca = none
      exact add_quadratic_terms_none fd funcs nfuncs 0 _ dx kp mca st.1 d1 h2
  simp only [build_quadratic_minimization_matrices_general, hm,
    List.range_succ_eq_map]
  exact foldlM_cons_none _ _ _ _ (hstep (fun _ _ => 0, fun _ => 0))

/-- Witness for the C1 code-evaluation theorem at the concrete failing
input: a first-order equation (two function rows) on a three-point grid
with one known point. -/
theorem build_general_none_witness :
    2 ≤ 2 ∧
      0 < (((([1] : List ℚ).length : ℤ)
        + min ((2 : ℕ) : ℤ) (((3 : ℕ) : ℤ) - (([1] : List ℚ).length : ℤ)) - 1
        + 1)).toNat ∧
      build_quadratic_minimization_matrices_general (fun _ _ => [])
        (fun r _ => if r = 0 then 1 else 2) 2 3 1 [1] 1 2 = none :=
  ⟨by decide, by decide,
    build_general_none (fun _ _ => []) (fun r _ => if r = 0 then 1 else 2)
      2 3 1 [1] 1 2 (by decide) (by decide)⟩

end Qde
